import Mathlib

/-!
Verification of the symbol-resolution core of `helmls` (src/src/main.rs).

The embedding below translates the Rust source faithfully:
* `Location`, `Var`, `Statement`, `Scope`, `Context` mirror the data model
  (main.rs lines 41-120).  The Rust `VecDeque<Scope>` is represented as a
  `List Scope` whose HEAD is the back of the deque (the top of the stack):
  `push_back` is cons, `pop_back` takes the head, and `iter().rev()`
  (back-to-front, i.e. innermost-to-outermost) is plain head-to-tail order.
* `BTreeMap<String, Var>` is represented as an association list with unique
  keys (`mapGet` / `mapInsert`); `insert` replaces in place and returns the
  previous value, exactly like `BTreeMap::insert`.
* Strings are represented as `List Char` and columns as `Nat`; the source
  casts byte offsets to `u32`, which coincides with character counting on
  the ASCII documents considered here.
* The regexes `STATEMENT_RE = \{\{-?\s*([^\}]+)\s*-?\}\}` and
  `RANGE_RE = range\s+(\$[\w]+),\s*(\$[\w]+)\s*:=` are implemented as
  executable matchers with the leftmost, greedy (leftmost-first) semantics
  of the `regex` crate specialised to these two patterns; `\s` and `\w` are
  modelled at their ASCII fragments, which agree with the crate on ASCII
  input.
* Rust panics (`unreachable!()` at main.rs:303,306,311,320,325 and
  `.unwrap()` on `None` at main.rs:253,260) are modelled as `Except.error`
  with an `RtError` constructor naming the panic site, so that aborting
  executions are distinguished from normal `Ok` results.
-/

namespace Helmls

/-- A declaration location: 0-based line and half-open column range
(main.rs lines 42-46). -/
structure Location where
  line : Nat
  range : Nat × Nat
deriving DecidableEq, Repr

/-- The YAML value placeholder stored in a `Var`; `goto_definition` only
ever stores `Value::Null` (main.rs line 352). -/
inductive YamlValue where
  | null
deriving DecidableEq, Repr

/-- A bound variable: value placeholder plus declaration location
(main.rs lines 48-53). -/
structure Var where
  value : YamlValue
  location : Location
deriving DecidableEq, Repr

/-- The block statement owning a scope (main.rs lines 55-62). -/
inductive Statement where
  | Global : Statement
  | IF : Location → Statement
  | ELSE : Location → Statement
  | WITH : Location → Statement
  | RANGE : Location → Statement
deriving DecidableEq, Repr

/-- Variable names; Rust `String` keys, as character lists. -/
abbrev Name := List Char

/-- The `BTreeMap<String, Var>` of a scope, as an association list with
unique keys. -/
abbrev VarMap := List (Name × Var)

/-- `BTreeMap::get`. -/
def mapGet (m : VarMap) (k : Name) : Option Var :=
  match m with
  | [] => none
  | (k', v') :: rest => if k' = k then some v' else mapGet rest k

/-- `BTreeMap::insert`: replace in place, returning the previous value. -/
def mapInsert (m : VarMap) (k : Name) (v : Var) : VarMap × Option Var :=
  match m with
  | [] => ([(k, v)], none)
  | (k', v') :: rest =>
    if k' = k then ((k, v) :: rest, some v')
    else
      let r := mapInsert rest k v
      ((k', v') :: r.1, r.2)

/-- A scope: symbol table plus owning statement (main.rs lines 64-78). -/
structure Scope where
  vars : VarMap
  statement : Statement
deriving DecidableEq, Repr

/-- `Scope::new` (main.rs line 72). -/
def Scope.new (stat : Statement) : Scope := ⟨[], stat⟩

/-- The scope stack (main.rs lines 80-83).  Head of the list = back of the
Rust `VecDeque` = top of the stack (the innermost scope); the last element
is the bottom (outermost). -/
structure Context where
  scopes : List Scope
deriving DecidableEq, Repr

/-- `Context::new` (main.rs lines 87-91). -/
def Context.new (scope : Scope) : Context := ⟨[scope]⟩

/-- Panic sites of the Rust source, modelled as recoverable errors so the
embedding can talk about them.  Each constructor is one `unreachable!()`
or `.unwrap()` that aborts the hosting process in the real code. -/
inductive RtError where
  /-- `tokens[..]` matched `[]` (main.rs line 303, `unreachable!()`). -/
  | emptyTokens
  /-- `end` popped the `Global` scope (main.rs line 306, `unreachable!()`). -/
  | endPoppedGlobal
  /-- `end` popped an empty stack (main.rs line 311, `unreachable!()`). -/
  | endPoppedNone
  /-- `else` popped an empty stack (main.rs line 320, `unreachable!()`). -/
  | elsePoppedNone
  /-- `else` popped a scope whose statement is not `IF`
  (main.rs line 325, `unreachable!()`). -/
  | elsePoppedNonIf
  /-- `declare_var` called with no scope on the stack
  (main.rs line 94, `back_mut().unwrap()`). -/
  | declareNoScope
  /-- no space character before the cursor column
  (main.rs line 253, `.last().unwrap()`). -/
  | noSpaceBeforeCursor
  /-- no space character at or after the cursor column
  (main.rs line 260, `.next().unwrap()`). -/
  | noSpaceAfterCursor
deriving DecidableEq, Repr

/-- Which `RtError`s correspond to the spec's MalformedTemplate error kind
(unbalanced `else`/`end`). -/
def RtError.isMalformedTemplate : RtError → Bool
  | .endPoppedGlobal | .endPoppedNone | .elsePoppedNone | .elsePoppedNonIf => true
  | _ => false

/-- `Context::declare_var` (main.rs lines 93-95): insert into the top
(back) scope; `back_mut().unwrap()` panics on an empty stack. -/
def Context.declare_var (ctx : Context) (key : Name) (val : Var) :
    Except RtError (Context × Option Var) :=
  match ctx.scopes with
  | [] => .error .declareNoScope
  | s :: rest =>
    let r := mapInsert s.vars key val
    .ok (⟨⟨r.1, s.statement⟩ :: rest⟩, r.2)

/-- Helper for `Context::set_var`: walk the scopes innermost-first. -/
def setVarGo (key : Name) (val : Var) : List Scope → Option Var × List Scope
  | [] => (none, [])
  | s :: rest =>
    if (mapGet s.vars key).isSome then
      let r := mapInsert s.vars key val
      (r.2, ⟨r.1, s.statement⟩ :: rest)
    else
      let r := setVarGo key val rest
      (r.1, s :: r.2)

/-- `Context::set_var` (main.rs lines 97-104): replace an existing binding,
searching scopes from the back (innermost) outward; never inserts a new
binding.  Returns the old value and the updated context. -/
def Context.set_var (ctx : Context) (key : Name) (val : Var) : Option Var × Context :=
  let r := setVarGo key val ctx.scopes
  (r.1, ⟨r.2⟩)

/-- `Context::get_var` (main.rs lines 106-111): first binding found,
searching scopes from the back (innermost) outward. -/
def Context.get_var (ctx : Context) (key : Name) : Option Var :=
  ctx.scopes.findSome? (fun s => mapGet s.vars key)

/-- `Context::push_scope` (main.rs lines 113-115): push onto the back. -/
def Context.push_scope (ctx : Context) (s : Scope) : Context := ⟨s :: ctx.scopes⟩

/-- `Context::pop_scope` (main.rs lines 117-119): pop from the back. -/
def Context.pop_scope (ctx : Context) : Option Scope × Context :=
  match ctx.scopes with
  | [] => (none, ctx)
  | s :: rest => (some s, ⟨rest⟩)

/-! ### The statement scanner (the two regexes) -/

/-- ASCII fragment of the regex class `\s` (also what
`str::split_whitespace` tests on ASCII input). -/
def isWs (c : Char) : Bool :=
  c == ' ' || c == '\t' || c == '\n' || c == '\x0b' || c == '\x0c' || c == '\r'

/-- ASCII fragment of the regex class `\w`. -/
def isWordChar (c : Char) : Bool := c.isAlphanum || c == '_'

/-- Index of the first occurrence of `c` at or after position `i`. -/
def findCharFrom (cs : List Char) (c : Char) (i : Nat) : Option Nat :=
  match (cs.drop i).findIdx? (fun x => x == c) with
  | some j => some (i + j)
  | none => none

/-- Length of the whitespace run starting at `b`, not reaching `q`. -/
def wsRunTo (cs : List Char) (b q : Nat) : Nat :=
  (((cs.drop b).take (q - b)).takeWhile isWs).length

/-- Length of the (unbounded) whitespace run starting at `i`. -/
def wsRun (cs : List Char) (i : Nat) : Nat :=
  ((cs.drop i).takeWhile isWs).length

/-- Length of the `\w`-run starting at `i`. -/
def wordRun (cs : List Char) (i : Nat) : Nat :=
  ((cs.drop i).takeWhile isWordChar).length

/-- Match `STATEMENT_RE = \{\{-?\s*([^\}]+)\s*-?\}\}` at position `i`.
Returns `(groupStart, groupEnd, matchEnd)` for capture group 1 under the
crate's greedy leftmost-first semantics: the closing `}}` is necessarily
the first `}` after the opening braces (the group cannot contain `}`), the
optional `-` is consumed when present, leading whitespace is consumed
greedily, and the group then extends to the first `}`; when everything
after the optional `-` is whitespace the greedy run backtracks one
character so the group still gets one (whitespace) character, and when the
inner region is exactly `-` the optional marker backtracks instead. -/
def matchStatementAt (cs : List Char) (i : Nat) : Option (Nat × Nat × Nat) :=
  if cs[i]? = some '{' ∧ cs[i + 1]? = some '{' then
    match findCharFrom cs '}' (i + 2) with
    | none => none
    | some q =>
      if cs[q + 1]? = some '}' ∧ i + 2 < q then
        let b := if cs[i + 2]? = some '-' then i + 3 else i + 2
        let b2 := b + wsRunTo cs b q
        if b2 < q then some (b2, q, q + 2)
        else if b < q then some (q - 1, q, q + 2)
        else some (i + 2, q, q + 2)
      else none
  else none

/-- `STATEMENT_RE.captures_iter`: successive non-overlapping leftmost
matches; returns the `(start, end)` spans of capture group 1.  `fuel`
bounds the scan position (the caller passes `cs.length + 1`). -/
def scanTagsFrom (cs : List Char) : Nat → Nat → List (Nat × Nat)
  | _, 0 => []
  | i, fuel + 1 =>
    if cs.length ≤ i then []
    else
      match matchStatementAt cs i with
      | some (g, q, e) => (g, q) :: scanTagsFrom cs e fuel
      | none => scanTagsFrom cs (i + 1) fuel

/-- All action-tag capture spans of one line, left to right. -/
def lineTags (line : List Char) : List (Nat × Nat) :=
  scanTagsFrom line 0 (line.length + 1)

/-- Match `RANGE_RE = range\s+(\$[\w]+),\s*(\$[\w]+)\s*:=` at position `i`;
returns the spans of the two capture groups (each including its `$`).
All quantifiers are effectively possessive here: no character tested by a
run can also satisfy the literal that follows it. -/
def matchRangeAt (cs : List Char) (i : Nat) : Option ((Nat × Nat) × (Nat × Nat)) :=
  if (cs.drop i).take 5 = "range".data then
    let w := wsRun cs (i + 5)
    if w = 0 then none
    else
      let j := i + 5 + w
      if cs[j]? = some '$' then
        let r1 := wordRun cs (j + 1)
        if r1 = 0 then none
        else
          let k1 := j + 1 + r1
          if cs[k1]? = some ',' then
            let j2 := k1 + 1 + wsRun cs (k1 + 1)
            if cs[j2]? = some '$' then
              let r2 := wordRun cs (j2 + 1)
              if r2 = 0 then none
              else
                let k2 := j2 + 1 + r2
                let m := k2 + wsRun cs k2
                if cs[m]? = some ':' ∧ cs[m + 1]? = some '=' then
                  some ((j, k1), (j2, k2))
                else none
            else none
          else none
      else none
  else none

/-- Leftmost-match search loop for `RANGE_RE.captures`. -/
def rangeCapturesGo (cs : List Char) : Nat → Nat → Option ((Nat × Nat) × (Nat × Nat))
  | _, 0 => none
  | i, fuel + 1 =>
    match matchRangeAt cs i with
    | some r => some r
    | none => if i < cs.length then rangeCapturesGo cs (i + 1) fuel else none

/-- `RANGE_RE.captures(line)`: the leftmost match, if any
(main.rs line 345, applied to the whole line). -/
def rangeCaptures (cs : List Char) : Option ((Nat × Nat) × (Nat × Nat)) :=
  rangeCapturesGo cs 0 (cs.length + 1)

/-- `str::split_whitespace` accumulator. -/
def splitWsAux : List Char → List Char → List (List Char)
  | [], acc => if acc = [] then [] else [acc.reverse]
  | c :: rest, acc =>
    if isWs c then
      if acc = [] then splitWsAux rest [] else acc.reverse :: splitWsAux rest []
    else splitWsAux rest (c :: acc)

/-- `str::split_whitespace().collect()` (main.rs line 301). -/
def splitWsChars (cs : List Char) : List (List Char) := splitWsAux cs []

/-- The slice `line[a..b]` as a character list. -/
def slice (line : List Char) (a b : Nat) : List Char := (line.drop a).take (b - a)

/-! ### Applying one scanned tag to the context (main.rs lines 290-364) -/

/-- The `match tokens[..]` block of `goto_definition` (main.rs lines
302-363), applied to the whitespace-token list of one capture: mutates the
context according to the first token. -/
def applyTokens (line : List Char) (lineno : Nat) (ctx : Context) (location : Location) :
    List Name → Except RtError Context
  | [] => .error .emptyTokens
  | t :: rest =>
    if t = "end".data then
      match ctx.pop_scope with
      | (none, _) => .error .endPoppedNone
      | (some s, ctx') =>
        match s.statement with
        | .Global => .error .endPoppedGlobal
        | _ => .ok ctx'
    else if t = "if".data then
      .ok (ctx.push_scope (Scope.new (.IF location)))
    else if t = "else".data then
      match ctx.pop_scope with
      | (none, _) => .error .elsePoppedNone
      | (some s, ctx') =>
        match s.statement with
        | .IF _ =>
          let scope :=
            match rest with
            | t2 :: _ =>
              if t2 = "if".data then Scope.new (.IF location) else Scope.new (.ELSE location)
            | [] => Scope.new (.ELSE location)
          .ok (ctx'.push_scope scope)
        | _ => .error .elsePoppedNonIf
    else if t = "with".data then
      .ok (ctx.push_scope (Scope.new (.WITH location)))
    else if t = "range".data then
      let ctx1 := ctx.push_scope (Scope.new (.RANGE location))
      match rangeCaptures line with
      | none => .ok ctx1
      | some ((s1, e1), (s2, e2)) =>
        match ctx1.declare_var (slice line s1 e1) ⟨.null, ⟨lineno, (s1, e1)⟩⟩ with
        | .error er => .error er
        | .ok (ctx2, _) =>
          match ctx2.declare_var (slice line s2 e2) ⟨.null, ⟨lineno, (s2, e2)⟩⟩ with
          | .error er => .error er
          | .ok (ctx3, _) => .ok ctx3
    else .ok ctx

/-- Process a single capture span `tag = (start, end)` of `STATEMENT_RE`
on `line` (main.rs lines 294-363): split the captured statement text into
whitespace tokens and dispatch on the first token. -/
def applyTag (line : List Char) (lineno : Nat) (ctx : Context) (tag : Nat × Nat) :
    Except RtError Context :=
  applyTokens line lineno ctx ⟨lineno, (tag.1, tag.2)⟩ (splitWsChars (slice line tag.1 tag.2))

/-- The `for mat in STATEMENT_RE.captures_iter(..)` loop body over a list
of capture spans. -/
def applyTags (line : List Char) (lineno : Nat) (ctx : Context) :
    List (Nat × Nat) → Except RtError Context
  | [] => .ok ctx
  | tag :: rest =>
    match applyTag line lineno ctx tag with
    | .error e => .error e
    | .ok ctx' => applyTags line lineno ctx' rest

/-- Scan one full (non-cursor) line: find all tags and apply them. -/
def scanLine (lineno : Nat) (ctx : Context) (line : List Char) : Except RtError Context :=
  applyTags line lineno ctx (lineTags line)

/-- Scan a list of lines starting at line number `lineno`. -/
def scanLinesFrom (lineno : Nat) (ctx : Context) : List (List Char) → Except RtError Context
  | [] => .ok ctx
  | l :: rest =>
    match scanLine lineno ctx l with
    | .error e => .error e
    | .ok ctx' => scanLinesFrom (lineno + 1) ctx' rest

/-! ### Cursor-line token extraction and resolution (main.rs lines 245-288) -/

/-- `line.chars().enumerate().take(col).filter(c == ' ').last()`, projected
to the index: the last space strictly before the cursor column. -/
def lastSpaceBefore (line : List Char) (col : Nat) : Option Nat :=
  ((((line.enum).take col).filter (fun p => p.2 == ' ')).getLast?).map (fun p => p.1)

/-- `line.chars().enumerate().skip(col).filter(c == ' ').next()`, projected
to the index: the first space at or after the cursor column. -/
def firstSpaceFrom (line : List Char) (col : Nat) : Option Nat :=
  (((line.enum).drop col).find? (fun p => p.2 == ' ')).map (fun p => p.1)

/-- `&line[start + 1..end]` (main.rs line 261): the candidate identifier
between the two space boundaries. -/
def extractKey (line : List Char) (s e : Nat) : Name := slice line (s + 1) e

/-- The cursor-line branch of `goto_definition` (main.rs lines 245-288):
extract the token under the cursor and look it up; the two `.unwrap()`s
are the `noSpace…` panics. -/
def resolveAtLine (ctx : Context) (line : List Char) (col : Nat) :
    Except RtError (Option Location) :=
  match lastSpaceBefore line col with
  | none => .error .noSpaceBeforeCursor
  | some s =>
    match firstSpaceFrom line col with
    | none => .error .noSpaceAfterCursor
    | some e =>
      match ctx.get_var (extractKey line s e) with
      | some var => .ok (some var.location)
      | none => .ok none

/-- The initial context: only the Global scope (main.rs line 241). -/
def ctx0 : Context := Context.new (Scope.new .Global)

/-- The `while let Some(line) = lines.next_line()` loop of
`goto_definition` (main.rs lines 244-367): scan lines before the cursor
line, resolve on the cursor line, return `Ok(None)` when the document ends
first. -/
def gotoDefGo (pos : Nat × Nat) : Nat → Context → List (List Char) →
    Except RtError (Option Location)
  | _, _, [] => .ok none
  | lineno, ctx, l :: rest =>
    if lineno = pos.1 then resolveAtLine ctx l pos.2
    else
      match scanLine lineno ctx l with
      | .error e => .error e
      | .ok ctx' => gotoDefGo pos (lineno + 1) ctx' rest

/-- `goto_definition` (main.rs lines 228-369) on a document given as a
list of lines and a cursor `(line, column)`.  `Ok (some loc)` is the
`GotoDefinitionResponse` location, `Ok none` the not-found result, and
`error` a Rust panic. -/
def gotoDefinition (doc : List (List Char)) (pos : Nat × Nat) :
    Except RtError (Option Location) :=
  gotoDefGo pos 0 ctx0 doc

end Helmls

namespace Helmls

/-! ### Shared helper lemmas -/

/-- Characterization of `List.findSome?` as "the image of the first element
whose image is `some`": the innermost-to-outermost search order of
`Context.get_var` and `Context.set_var`. -/
theorem findSome?_some_iff {α β : Type} (f : α → Option β) (l : List α) (v : β) :
    l.findSome? f = some v ↔
      ∃ i : Nat, ∃ s : α, l[i]? = some s ∧ f s = some v ∧
        ∀ j : Nat, j < i → ∀ t : α, l[j]? = some t → f t = none := by
  induction l with
  | nil => simp
  | cons s₀ tl ih =>
    rw [List.findSome?_cons]
    cases h₀ : f s₀ with
    | some w =>
      constructor
      · intro hv
        refine ⟨0, s₀, List.getElem?_cons_zero, ?_, ?_⟩
        · rw [h₀]; exact hv
        · intro j hj
          exact absurd hj (Nat.not_lt_zero j)
      · rintro ⟨i, s, hi, hf, hmin⟩
        cases i with
        | zero =>
          rw [List.getElem?_cons_zero] at hi
          obtain rfl : s₀ = s := by injection hi
          rw [h₀] at hf
          exact hf
        | succ i' =>
          have h1 := hmin 0 (Nat.succ_pos _) s₀ List.getElem?_cons_zero
          rw [h₀] at h1
          exact absurd h1 (by simp)
    | none =>
      rw [ih]
      constructor
      · rintro ⟨i, s, hi, hf, hmin⟩
        refine ⟨i + 1, s, ?_, hf, ?_⟩
        · rw [List.getElem?_cons_succ]; exact hi
        · intro j hj t ht
          cases j with
          | zero =>
            rw [List.getElem?_cons_zero] at ht
            obtain rfl : s₀ = t := by injection ht
            exact h₀
          | succ j' =>
            rw [List.getElem?_cons_succ] at ht
            exact hmin j' (by omega) t ht
      · rintro ⟨i, s, hi, hf, hmin⟩
        cases i with
        | zero =>
          rw [List.getElem?_cons_zero] at hi
          obtain rfl : s₀ = s := by injection hi
          rw [h₀] at hf
          exact absurd hf (by simp)
        | succ i' =>
          rw [List.getElem?_cons_succ] at hi
          refine ⟨i', s, hi, hf, ?_⟩
          intro j hj t ht
          have := hmin (j + 1) (by omega) t
          rw [List.getElem?_cons_succ] at this
          exact this ht

/-! ### C3: the two-variable range scenario -/

/-- C3: for the document `{{ range $k, $v := .Values.list }}` /
`{{ $v }}` with the cursor on the `$v` of line 1 (column 3), the
definition query returns the location of the `$v` occurrence of line 0:
line 0, half-open column span `[13, 15)` — the span of that `$v`
identifier, declared as a Var of the Range scope together with `$k`. -/
theorem C3_range_two_var_resolution :
    gotoDefinition ["{{ range $k, $v := .Values.list }}".data, "{{ $v }}".data] (1, 3) =
      .ok (some ⟨0, (13, 15)⟩) := rfl

/-! ### C1 and C2: the panic sites (code bugs) -/

/-- C1 (divergence witness): on a document whose first action tag is a
lone `{{ end }}`, the definition query does not produce a reportable
MalformedTemplate diagnostic — it executes the `unreachable!()` at
main.rs line 306 (the `end` arm popped the Global scope), i.e. it panics.
`RtError.endPoppedGlobal` models exactly that panic. -/
theorem C1_lone_end_panics :
    gotoDefinition ["{{ end }}".data, "{{ $v }}".data] (1, 3) = .error .endPoppedGlobal ∧
    RtError.endPoppedGlobal.isMalformedTemplate = true := ⟨rfl, rfl⟩

/-- C2 (divergence witness): with the cursor at column 0 of the line
`abc` (no space character strictly before the cursor), identifier
extraction does not report not-found — the `.last().unwrap()` at
main.rs line 253 panics on `None`.  `RtError.noSpaceBeforeCursor` models
exactly that panic. -/
theorem C2_no_boundary_panics :
    gotoDefinition ["abc".data] (0, 0) = .error .noSpaceBeforeCursor := rfl

/-! ### C4: lookup order and shadowing -/

/-- C4: `Context::get_var` searches the scopes innermost (head of
`scopes`, the back of the `VecDeque`) to outermost and returns the first
binding found, or `none` when no scope binds the name.  Consequently an
inner scope's binding hides any outer one (the `some` case requires every
strictly-inner scope to be unbound), and a name bound only in an outer
scope is still found from nested scopes (the witness index may be any
depth). -/
theorem C4_get_var_innermost_first (ctx : Context) (k : Name) :
    (ctx.get_var k = none ↔ ∀ s ∈ ctx.scopes, mapGet s.vars k = none) ∧
    (∀ v : Var, ctx.get_var k = some v ↔
      ∃ i : Nat, ∃ s : Scope, ctx.scopes[i]? = some s ∧ mapGet s.vars k = some v ∧
        ∀ j : Nat, j < i → ∀ t : Scope, ctx.scopes[j]? = some t → mapGet t.vars k = none) := by
  constructor
  · exact List.findSome?_eq_none_iff
  · intro v
    exact findSome?_some_iff (fun s => mapGet s.vars k) ctx.scopes v

/-- Concrete instantiation of C4: a two-scope context where the inner
scope's binding of `$v` shadows the outer one. -/
def shadowCtx : Context :=
  ⟨[⟨[("$v".data, ⟨.null, ⟨5, (1, 3)⟩⟩)], .IF ⟨4, (0, 2)⟩⟩,
    ⟨[("$v".data, ⟨.null, ⟨0, (9, 11)⟩⟩)], .Global⟩]⟩

/-- Witness for C4: in `shadowCtx`, lookup of `$v` returns the inner
(IF-scope) binding, by the characterization instantiated at index 0. -/
theorem C4_witness : shadowCtx.get_var "$v".data = some ⟨.null, ⟨5, (1, 3)⟩⟩ :=
  ((C4_get_var_innermost_first shadowCtx "$v".data).2 ⟨.null, ⟨5, (1, 3)⟩⟩).mpr
    ⟨0, ⟨[("$v".data, ⟨.null, ⟨5, (1, 3)⟩⟩)], .IF ⟨4, (0, 2)⟩⟩, List.getElem?_cons_zero, rfl,
      fun j hj => absurd hj (Nat.not_lt_zero j)⟩

end Helmls

namespace Helmls

/-- `mapInsert` on a key that is present: it returns the old value, binds
the key to the new value, and leaves every other key's binding unchanged. -/
theorem mapInsert_found (m : VarMap) (k : Name) (v o : Var) (h : mapGet m k = some o) :
    (mapInsert m k v).2 = some o ∧ mapGet (mapInsert m k v).1 k = some v ∧
    ∀ k' : Name, k' ≠ k → mapGet (mapInsert m k v).1 k' = mapGet m k' := by
  induction m with
  | nil => simp [mapGet] at h
  | cons p rest ih =>
    obtain ⟨k₀, v₀⟩ := p
    by_cases hk : k₀ = k
    · subst hk
      rw [mapGet, if_pos rfl] at h
      refine ⟨?_, ?_, ?_⟩
      · simp [mapInsert, h]
      · simp [mapInsert, mapGet]
      · intro k' hk'
        have hne : ¬ (k₀ = k') := fun hh => hk' hh.symm
        simp [mapInsert, mapGet, if_neg hne]
    · rw [mapGet, if_neg hk] at h
      obtain ⟨h1, h2, h3⟩ := ih h
      refine ⟨?_, ?_, ?_⟩
      · simp [mapInsert, if_neg hk, h1]
      · simp [mapInsert, mapGet, if_neg hk, h2]
      · intro k' hk'
        by_cases hk0 : k₀ = k'
        · simp [mapInsert, if_neg hk, mapGet, if_pos hk0]
        · simp [mapInsert, if_neg hk, mapGet, if_neg hk0, h3 k' hk']

/-- `setVarGo` on scopes none of which binds the key: no-op. -/
theorem setVarGo_none (k : Name) (v : Var) :
    ∀ l : List Scope, (∀ s ∈ l, mapGet s.vars k = none) → setVarGo k v l = (none, l) := by
  intro l
  induction l with
  | nil => intro _; rfl
  | cons s rest ih =>
    intro h
    have hs := h s (List.mem_cons_self s rest)
    have hr := ih (fun t ht => h t (List.mem_cons_of_mem s ht))
    simp [setVarGo, hs, hr]

/-- `setVarGo` at the innermost scope binding the key: it returns the old
value and replaces that binding in place, leaving every other scope and
every other key untouched. -/
theorem setVarGo_found (k : Name) (v : Var) :
    ∀ (l : List Scope) (i : Nat) (s : Scope), l[i]? = some s →
      ∀ o : Var, mapGet s.vars k = some o →
      (∀ j : Nat, j < i → ∀ t : Scope, l[j]? = some t → mapGet t.vars k = none) →
      (setVarGo k v l).1 = some o ∧
      (setVarGo k v l).2.length = l.length ∧
      (∀ j : Nat, j ≠ i → (setVarGo k v l).2[j]? = l[j]?) ∧
      (∃ s' : Scope, (setVarGo k v l).2[i]? = some s' ∧ s'.statement = s.statement ∧
        mapGet s'.vars k = some v ∧
        ∀ k' : Name, k' ≠ k → mapGet s'.vars k' = mapGet s.vars k') := by
  intro l
  induction l with
  | nil =>
    intro i s hi
    rw [List.getElem?_nil] at hi
    exact absurd hi (by simp)
  | cons s₀ tl ih =>
    intro i s hi o ho hmin
    cases i with
    | zero =>
      rw [List.getElem?_cons_zero] at hi
      injection hi with hi
      subst hi
      obtain ⟨h1, h2, h3⟩ := mapInsert_found s₀.vars k v o ho
      refine ⟨?_, ?_, ?_, ?_⟩
      · simp [setVarGo, ho, h1]
      · simp [setVarGo, ho]
      · intro j hj
        cases j with
        | zero => exact absurd rfl hj
        | succ j' =>
          simp only [setVarGo, ho, Option.isSome_some, if_true]
          rw [List.getElem?_cons_succ, List.getElem?_cons_succ]
      · refine ⟨⟨(mapInsert s₀.vars k v).1, s₀.statement⟩, ?_, rfl, h2, h3⟩
        simp only [setVarGo, ho, Option.isSome_some, if_true]
        exact List.getElem?_cons_zero
    | succ i' =>
      have h0 := hmin 0 (Nat.succ_pos _) s₀ List.getElem?_cons_zero
      rw [List.getElem?_cons_succ] at hi
      have ihs := ih i' s hi o ho
        (fun j hj t ht => hmin (j + 1) (by omega) t (by rw [List.getElem?_cons_succ]; exact ht))
      obtain ⟨h1, h2, h3, s', h4, h5, h6, h7⟩ := ihs
      refine ⟨?_, ?_, ?_, ?_⟩
      · simp [setVarGo, h0, h1]
      · simp [setVarGo, h0, h2]
      · intro j hj
        cases j with
        | zero =>
          simp only [setVarGo, h0, Option.isSome_none, Bool.false_eq_true, if_false]
          rw [List.getElem?_cons_zero, List.getElem?_cons_zero]
        | succ j' =>
          simp only [setVarGo, h0, Option.isSome_none, Bool.false_eq_true, if_false]
          rw [List.getElem?_cons_succ, List.getElem?_cons_succ]
          exact h3 j' (by omega)
      · refine ⟨s', ?_, h5, h6, h7⟩
        simp only [setVarGo, h0, Option.isSome_none, Bool.false_eq_true, if_false]
        rw [List.getElem?_cons_succ]
        exact h4

/-- C7: `Context::set_var` searches scopes innermost to outermost for an
existing binding; if one exists at index `i` (innermost such), it replaces
that binding in place (same scope statement, same other keys, all other
scopes untouched) and returns the old value; if no scope binds the name,
the context is returned completely unchanged with `none` — a new binding
is never created. -/
theorem C7_set_var_replace_or_noop (ctx : Context) (k : Name) (v : Var) :
    (ctx.get_var k = none → ctx.set_var k v = (none, ctx)) ∧
    (∀ i : Nat, ∀ s : Scope, ctx.scopes[i]? = some s →
      ∀ o : Var, mapGet s.vars k = some o →
      (∀ j : Nat, j < i → ∀ t : Scope, ctx.scopes[j]? = some t → mapGet t.vars k = none) →
      (ctx.set_var k v).1 = some o ∧
      (ctx.set_var k v).2.scopes.length = ctx.scopes.length ∧
      (∀ j : Nat, j ≠ i → (ctx.set_var k v).2.scopes[j]? = ctx.scopes[j]?) ∧
      (∃ s' : Scope, (ctx.set_var k v).2.scopes[i]? = some s' ∧ s'.statement = s.statement ∧
        mapGet s'.vars k = some v ∧
        ∀ k' : Name, k' ≠ k → mapGet s'.vars k' = mapGet s.vars k')) := by
  constructor
  · intro h
    have hall := List.findSome?_eq_none_iff.mp h
    have := setVarGo_none k v ctx.scopes hall
    simp [Context.set_var, this]
  · intro i s hi o ho hmin
    exact setVarGo_found k v ctx.scopes i s hi o ho hmin

/-- A context for the `set_var` witness: the inner IF scope and the outer
Global scope both bind `$x`. -/
def setVarCtx : Context :=
  ⟨[⟨[("$x".data, ⟨.null, ⟨3, (1, 3)⟩⟩)], .IF ⟨2, (0, 2)⟩⟩,
    ⟨[("$x".data, ⟨.null, ⟨0, (4, 6)⟩⟩)], .Global⟩]⟩

/-- Witness for C7: reassigning `$x` in `setVarCtx` returns the inner
(innermost-scope) old value, by the characterization at index 0. -/
theorem C7_witness :
    (setVarCtx.set_var "$x".data ⟨.null, ⟨9, (9, 11)⟩⟩).1 = some ⟨.null, ⟨3, (1, 3)⟩⟩ :=
  ((C7_set_var_replace_or_noop setVarCtx "$x".data ⟨.null, ⟨9, (9, 11)⟩⟩).2 0
    ⟨[("$x".data, ⟨.null, ⟨3, (1, 3)⟩⟩)], .IF ⟨2, (0, 2)⟩⟩ List.getElem?_cons_zero
    ⟨.null, ⟨3, (1, 3)⟩⟩ rfl
    (fun j hj => absurd hj (Nat.not_lt_zero j))).1

end Helmls

namespace Helmls

/-! ### C6: only the lines strictly before the cursor are applied -/

/-- Helper for C6: running the query loop from line `n` over
`pre ++ cur :: post` with the cursor on line `n + pre.length` first scans
exactly `pre` (in source order) and then resolves on `cur` without
applying any of `cur`'s action tags. -/
theorem gotoDefGo_split (cur : List Char) (post : List (List Char)) (col : Nat) :
    ∀ (pre : List (List Char)) (n : Nat) (ctx : Context),
      gotoDefGo (n + pre.length, col) n ctx (pre ++ cur :: post) =
        match scanLinesFrom n ctx pre with
        | .error e => .error e
        | .ok ctx' => resolveAtLine ctx' cur col := by
  intro pre
  induction pre with
  | nil =>
    intro n ctx
    simp [gotoDefGo, scanLinesFrom]
  | cons l pre' ih =>
    intro n ctx
    rw [List.cons_append, gotoDefGo]
    have hne : ¬ (n = (n + (l :: pre').length, col).1) := by simp
    rw [if_neg hne]
    cases h : scanLine n ctx l with
    | error e => rw [scanLinesFrom, h]
    | ok ctx' =>
      rw [scanLinesFrom, h]
      have harith : (n + 1) + pre'.length = n + (l :: pre').length := by
        simp [List.length_cons]; omega
      have hrec := ih (n + 1) ctx'
      rw [harith] at hrec
      exact hrec

/-- C6: for every document and every in-range cursor, the definition query
equals: scan exactly the lines strictly before the cursor line, in source
order, then resolve the token on the cursor line against that context —
the cursor line's own action tags are never applied before the lookup. -/
theorem C6_cursor_line_not_applied (pre post : List (List Char)) (cur : List Char) (col : Nat) :
    gotoDefinition (pre ++ cur :: post) (pre.length, col) =
      match scanLinesFrom 0 ctx0 pre with
      | .error e => .error e
      | .ok ctx' => resolveAtLine ctx' cur col := by
  have h := gotoDefGo_split cur post col pre 0 ctx0
  rw [Nat.zero_add] at h
  exact h

/-! ### C9: cursor line at or past the end of the document -/

/-- Helper for C9: when the remaining scan succeeds and the cursor line is
past every remaining line number, the loop falls off the document and
returns the not-found result. -/
theorem gotoDefGo_past_end (col : Nat) (line : Nat) :
    ∀ (doc : List (List Char)) (n : Nat) (ctx ctxf : Context),
      scanLinesFrom n ctx doc = .ok ctxf → n + doc.length ≤ line →
      gotoDefGo (line, col) n ctx doc = .ok none := by
  intro doc
  induction doc with
  | nil => intro n ctx ctxf _ _; rfl
  | cons l rest ih =>
    intro n ctx ctxf hscan hlen
    rw [gotoDefGo]
    have hne : ¬ (n = (line, col).1) := by
      simp only [List.length_cons] at hlen
      simp
      omega
    rw [if_neg hne]
    rw [scanLinesFrom] at hscan
    cases h : scanLine n ctx l with
    | error e => rw [h] at hscan; exact absurd hscan (by simp)
    | ok ctx' =>
      rw [h] at hscan
      refine ih (n + 1) ctx' ctxf hscan ?_
      simp only [List.length_cons] at hlen
      omega

/-- C9 counterexample: the document consisting of the single line
`{{ end }}` with cursor line 1 (which is ≥ the number of lines, 1): the
query does not return not-found — scanning line 0 hits the
`unreachable!()` panic (modelled as `RtError.endPoppedGlobal`), so the
claim "returns the not-found result, having scanned every line without
error" is false for this input. -/
theorem C9_cex_beyond_doc_panics :
    ([("{{ end }}".data)] : List (List Char)).length ≤ 1 ∧
    gotoDefinition [("{{ end }}".data)] (1, 0) = .error .endPoppedGlobal :=
  ⟨by simp, rfl⟩

/-- C9 (amended): for every document whose full scan succeeds (no panic)
and every cursor whose line number is at least the number of lines, the
definition query returns the not-found result. -/
theorem C9_beyond_doc_not_found (doc : List (List Char)) (line col : Nat) (ctxf : Context)
    (hscan : scanLinesFrom 0 ctx0 doc = .ok ctxf) (hline : doc.length ≤ line) :
    gotoDefinition doc (line, col) = .ok none :=
  gotoDefGo_past_end col line doc 0 ctx0 ctxf hscan (by omega)

/-- Witness for C9: the empty document with cursor (0, 0). -/
theorem C9_witness : gotoDefinition [] (0, 0) = .ok none :=
  C9_beyond_doc_not_found [] 0 0 ctx0 rfl (by decide)

end Helmls

namespace Helmls

/-! ### C5: the `else` arm pops one scope and pushes one scope -/

/-- C5: when a scanned tag's first token is `else`, exactly one scope is
popped: on an empty stack, or when the popped scope's statement is not
`IF`, the query aborts in the respective MalformedTemplate panic
(`elsePoppedNone` / `elsePoppedNonIf`); when the popped scope is an `IF`
scope, exactly one new scope is pushed in its place — an `IF` scope when
the token immediately after `else` is `if` (else-if chaining), an `ELSE`
scope otherwise — with the rest of the stack unchanged. -/
theorem C5_else_pop_push (line : List Char) (lineno gs ge : Nat) (ctx : Context)
    (rest : List Name)
    (h : splitWsChars (slice line gs ge) = "else".data :: rest) :
    (ctx.scopes = [] → applyTag line lineno ctx (gs, ge) = .error .elsePoppedNone) ∧
    (∀ s : Scope, ∀ tl : List Scope, ctx.scopes = s :: tl →
      (∀ l : Location, s.statement ≠ .IF l) →
      applyTag line lineno ctx (gs, ge) = .error .elsePoppedNonIf ∧
      RtError.elsePoppedNonIf.isMalformedTemplate = true) ∧
    (∀ s : Scope, ∀ tl : List Scope, ∀ l : Location, ctx.scopes = s :: tl →
      s.statement = .IF l →
      applyTag line lineno ctx (gs, ge) =
        .ok ⟨Scope.new (if rest.head? = some ("if".data) then Statement.IF ⟨lineno, (gs, ge)⟩
              else Statement.ELSE ⟨lineno, (gs, ge)⟩) :: tl⟩) := by
  obtain ⟨sl⟩ := ctx
  have hne1 : ¬ ("else".data = "end".data) := by decide
  have hne2 : ¬ ("else".data = "if".data) := by decide
  refine ⟨?_, ?_, ?_⟩
  · intro hsl
    simp only at hsl
    subst hsl
    simp [applyTag, applyTokens, h, hne1, hne2, Context.pop_scope]
  · intro s tl hsl hnif
    simp only at hsl
    subst hsl
    constructor
    · simp only [applyTag, applyTokens, h, if_neg hne1, if_neg hne2, if_pos rfl, Context.pop_scope]
      cases hst : s.statement with
      | Global => rfl
      | IF l => exact absurd hst (hnif l)
      | ELSE _ => rfl
      | WITH _ => rfl
      | RANGE _ => rfl
    · rfl
  · intro s tl l hsl hif
    simp only at hsl
    subst hsl
    simp only [applyTag, applyTokens, h, if_neg hne1, if_neg hne2, if_pos rfl, Context.pop_scope, hif,
      Context.push_scope]
    cases rest with
    | nil => rfl
    | cons t2 rest' =>
      by_cases ht2 : t2 = "if".data
      · subst ht2
        simp
      · simp [ht2]

end Helmls

namespace Helmls

/-- A context for the `else` witness: one IF scope above Global. -/
def elseCtx : Context := ⟨[Scope.new (.IF ⟨0, (3, 7)⟩), Scope.new .Global]⟩

/-- Witness for C5: applying the tag `{{ else }}` (capture span `(3, 8)`
of that line) on `elseCtx` pops the IF scope and pushes an ELSE scope. -/
theorem C5_witness :
    applyTag "{{ else }}".data 1 elseCtx (3, 8) =
      .ok ⟨[Scope.new (.ELSE ⟨1, (3, 8)⟩), Scope.new .Global]⟩ := by
  have h := (C5_else_pop_push "{{ else }}".data 1 3 8 elseCtx [] rfl).2.2
    (Scope.new (.IF ⟨0, (3, 7)⟩)) [Scope.new .Global] ⟨0, (3, 7)⟩ rfl rfl
  simpa using h

end Helmls

namespace Helmls

/-! ### C10: only the space character is a token boundary -/

/-- Indexing an `enumFrom`: element `m` is `(n + m, l[m])`. -/
theorem enumFrom_getElem? {α : Type} :
    ∀ (l : List α) (n m : Nat), (l.enumFrom n)[m]? = l[m]?.map (fun a => (n + m, a)) := by
  intro l
  induction l with
  | nil => intro n m; simp [List.enumFrom]
  | cons a t ih =>
    intro n m
    cases m with
    | zero => simp [List.enumFrom]
    | succ m' =>
      rw [List.enumFrom, List.getElem?_cons_succ, List.getElem?_cons_succ, ih (n + 1) m']
      have : n + 1 + m' = n + (m' + 1) := by omega
      rw [this]

/-- `take` commutes with `enumFrom`. -/
theorem enumFrom_take {α : Type} :
    ∀ (l : List α) (n k : Nat), (l.enumFrom n).take k = (l.take k).enumFrom n := by
  intro l
  induction l with
  | nil => intro n k; simp [List.enumFrom]
  | cons a t ih =>
    intro n k
    cases k with
    | zero => simp
    | succ k' =>
      rw [List.enumFrom, List.take_succ_cons, List.take_succ_cons, List.enumFrom, ih (n + 1) k']

/-- `drop` shifts the base of `enumFrom`. -/
theorem enumFrom_drop {α : Type} :
    ∀ (l : List α) (n k : Nat), (l.enumFrom n).drop k = (l.drop k).enumFrom (n + k) := by
  intro l
  induction l with
  | nil => intro n k; simp [List.enumFrom]
  | cons a t ih =>
    intro n k
    cases k with
    | zero => simp
    | succ k' =>
      rw [List.enumFrom, List.drop_succ_cons, List.drop_succ_cons, ih (n + 1) k']
      have : n + 1 + k' = n + (k' + 1) := by omega
      rw [this]

/-- A `find?` for a space over an enumerated suffix: the hit is the first
space, every character strictly before it is not a space. -/
theorem find?_space_enumFrom :
    ∀ (cs : List Char) (n : Nat) (p : Nat × Char),
      (cs.enumFrom n).find? (fun q => q.2 == ' ') = some p →
      n ≤ p.1 ∧ cs[p.1 - n]? = some ' ' ∧
      ∀ m : Nat, m < p.1 - n → cs[m]? ≠ some ' ' := by
  intro cs
  induction cs with
  | nil => intro n p h; simp [List.enumFrom] at h
  | cons c t ih =>
    intro n p h
    rw [List.enumFrom] at h
    by_cases hc : ((n, c).2 == ' ') = true
    · simp only [List.find?_cons, hc] at h
      injection h with h
      subst h
      have hc' : c = ' ' := by simpa using hc
      subst hc'
      refine ⟨Nat.le_refl n, ?_, ?_⟩
      · simp
      · intro m hm
        omega
    · have hc' : ((n, c).2 == ' ') = false := by simpa using hc
      simp only [List.find?_cons, hc'] at h
      obtain ⟨h1, h2, h3⟩ := ih (n + 1) p h
      have hd : p.1 - n = (p.1 - (n + 1)) + 1 := by omega
      refine ⟨by omega, ?_, ?_⟩
      · rw [hd, List.getElem?_cons_succ]
        exact h2
      · intro m hm
        cases m with
        | zero =>
          rw [List.getElem?_cons_zero]
          intro hcc
          injection hcc with hcc
          subst hcc
          simp at hc
        | succ m' =>
          rw [List.getElem?_cons_succ]
          exact h3 m' (by omega)

/-- If the space-filter of an enumerated suffix is empty, no character of
the suffix is a space. -/
theorem filter_space_nil :
    ∀ (cs : List Char) (n : Nat),
      (cs.enumFrom n).filter (fun q => q.2 == ' ') = [] →
      ∀ m : Nat, cs[m]? ≠ some ' ' := by
  intro cs
  induction cs with
  | nil => intro n _ m; simp
  | cons c t ih =>
    intro n h m
    rw [List.enumFrom, List.filter_cons] at h
    by_cases hc : ((n, c).2 == ' ') = true
    · rw [if_pos hc] at h
      exact absurd h (by simp)
    · rw [if_neg hc] at h
      cases m with
      | zero =>
        rw [List.getElem?_cons_zero]
        intro hcc
        injection hcc with hcc
        subst hcc
        simp at hc
      | succ m' =>
        rw [List.getElem?_cons_succ]
        exact ih (n + 1) h m'

/-- The last space of an enumerated prefix: the hit is a space, and every
character strictly after it is not a space. -/
theorem getLast?_space_enumFrom :
    ∀ (cs : List Char) (n : Nat) (p : Nat × Char),
      ((cs.enumFrom n).filter (fun q => q.2 == ' ')).getLast? = some p →
      n ≤ p.1 ∧ cs[p.1 - n]? = some ' ' ∧
      ∀ m : Nat, p.1 - n < m → cs[m]? ≠ some ' ' := by
  intro cs
  induction cs with
  | nil => intro n p h; simp [List.enumFrom] at h
  | cons c t ih =>
    intro n p h
    rw [List.enumFrom, List.filter_cons] at h
    by_cases hc : ((n, c).2 == ' ') = true
    · rw [if_pos hc] at h
      cases hrest : (t.enumFrom (n + 1)).filter (fun q => q.2 == ' ') with
      | nil =>
        rw [hrest] at h
        have hp : (n, c) = p := by simpa using h
        obtain rfl := hp.symm
        have hc' : c = ' ' := by simpa using hc
        subst hc'
        refine ⟨Nat.le_refl n, by simp, ?_⟩
        intro m hm
        have hm1 : 0 < m := by omega
        obtain ⟨m', rfl⟩ : ∃ m', m = m' + 1 := ⟨m - 1, by omega⟩
        rw [List.getElem?_cons_succ]
        exact filter_space_nil t (n + 1) hrest m'
      | cons y ys =>
        rw [hrest, List.getLast?_cons_cons] at h
        have hrec := ih (n + 1) p (by rw [hrest]; exact h)
        obtain ⟨h1, h2, h3⟩ := hrec
        have hd : p.1 - n = (p.1 - (n + 1)) + 1 := by omega
        refine ⟨by omega, ?_, ?_⟩
        · rw [hd, List.getElem?_cons_succ]
          exact h2
        · intro m hm
          obtain ⟨m', rfl⟩ : ∃ m', m = m' + 1 := ⟨m - 1, by omega⟩
          rw [List.getElem?_cons_succ]
          exact h3 m' (by omega)
    · rw [if_neg hc] at h
      obtain ⟨h1, h2, h3⟩ := ih (n + 1) p h
      have hd : p.1 - n = (p.1 - (n + 1)) + 1 := by omega
      refine ⟨by omega, ?_, ?_⟩
      · rw [hd, List.getElem?_cons_succ]
        exact h2
      · intro m hm
        cases m with
        | zero => omega
        | succ m' =>
          rw [List.getElem?_cons_succ]
          exact h3 m' (by omega)

/-- C10: the token extraction of the cursor line treats exactly the ASCII
space character `' '` as a boundary.  When both boundaries exist, the left
boundary `s` and the right boundary `e` are spaces, the cursor column lies
in `(s, e]`, no character strictly between the boundaries is a space (so
tabs and the `{`/`}` delimiters are part of the candidate token), and the
extracted key consists exactly of the characters at positions
`s + 1, …, e - 1` — both bounding spaces excluded. -/
theorem C10_space_only_boundary (ln : List Char) (col s e : Nat)
    (hs : lastSpaceBefore ln col = some s) (he : firstSpaceFrom ln col = some e) :
    ln[s]? = some ' ' ∧ ln[e]? = some ' ' ∧ s < col ∧ col ≤ e ∧
    (∀ j : Nat, s < j → j < e → ln[j]? ≠ some ' ') ∧
    (∀ i : Nat, (extractKey ln s e)[i]? = if s + 1 + i < e then ln[s + 1 + i]? else none) := by
  rw [lastSpaceBefore] at hs
  rw [firstSpaceFrom] at he
  obtain ⟨p, hp, hps⟩ := Option.map_eq_some'.mp hs
  obtain ⟨r, hr, hrs⟩ := Option.map_eq_some'.mp he
  have henum : ln.enum = ln.enumFrom 0 := rfl
  rw [henum, enumFrom_take] at hp
  rw [henum, enumFrom_drop] at hr
  rw [Nat.zero_add] at hr
  obtain ⟨hp1, hp2, hp3⟩ := getLast?_space_enumFrom (ln.take col) 0 p hp
  obtain ⟨hr1, hr2, hr3⟩ := find?_space_enumFrom (ln.drop col) col r hr
  rw [hps] at hp2 hp3
  rw [hrs] at hr1 hr2 hr3
  rw [Nat.sub_zero] at hp2 hp3
  -- left boundary facts
  have hslen : s < (ln.take col).length := (List.getElem?_eq_some.mp hp2).1
  have hscol : s < col := by
    rw [List.length_take] at hslen
    omega
  have hsline : ln[s]? = some ' ' := by
    rw [List.getElem?_take, if_pos hscol] at hp2
    exact hp2
  -- right boundary facts
  have helen : e - col < (ln.drop col).length := (List.getElem?_eq_some.mp hr2).1
  have heline : ln[e]? = some ' ' := by
    rw [List.getElem?_drop] at hr2
    have : col + (e - col) = e := by omega
    rw [this] at hr2
    exact hr2
  refine ⟨hsline, heline, hscol, hr1, ?_, ?_⟩
  · intro j hj1 hj2
    by_cases hjcol : j < col
    · have := hp3 j hj1
      rw [List.getElem?_take, if_pos hjcol] at this
      exact this
    · have hm := hr3 (j - col) (by omega)
      rw [List.getElem?_drop] at hm
      have : col + (j - col) = j := by omega
      rw [this] at hm
      exact hm
  · intro i
    rw [extractKey, slice, List.getElem?_take]
    by_cases hi : i < e - (s + 1)
    · rw [if_pos hi, List.getElem?_drop, if_pos (by omega)]
    · rw [if_neg hi, if_neg (by omega)]

end Helmls

namespace Helmls

/-- Witness for C10: on the line `a \tb} c` with the cursor at column 3,
the boundaries are the spaces at 1 and 5 and the extracted token contains
a tab and a closing brace. -/
theorem C10_witness :
    ("a \tb\x7d c".data)[1]? = some ' ' ∧ ("a \tb\x7d c".data)[5]? = some ' ' ∧
    (extractKey "a \tb\x7d c".data 1 5)[0]? = some '\t' := by
  have h := C10_space_only_boundary "a \tb\x7d c".data 3 1 5 rfl rfl
  refine ⟨h.1, h.2.1, ?_⟩
  rw [h.2.2.2.2.2 0, if_pos (by norm_num)]
  rfl

/-! ### C8: balanced documents leave only the Global scope -/

/-- Open/close classification of a scanned tag, following the dispatch of
`applyTokens`: `if`/`with`/`range` open a block, `end` closes one,
everything else (including `else`, which pops and pushes) is neutral. -/
inductive TagOp where
  | openB
  | closeB
  | neutral
deriving DecidableEq, Repr

/-- The `TagOp` of one token list. -/
def tokensOpKind : List Name → TagOp
  | [] => .neutral
  | t :: _ =>
    if t = "end".data then .closeB
    else if t = "if".data then .openB
    else if t = "else".data then .neutral
    else if t = "with".data then .openB
    else if t = "range".data then .openB
    else .neutral

/-- The `TagOp` of one capture span. -/
def tagOpKind (ln : List Char) (tag : Nat × Nat) : TagOp :=
  tokensOpKind (splitWsChars (slice ln tag.1 tag.2))

/-- The `TagOp`s of one line, left to right. -/
def lineOps (ln : List Char) : List TagOp := (lineTags ln).map (tagOpKind ln)

/-- The `TagOp`s of a whole document, in source order. -/
def docOps (doc : List (List Char)) : List TagOp := (doc.map lineOps).flatten

/-- Occurrence counting for `TagOp`s. -/
def countOp (target : TagOp) : List TagOp → Nat
  | [] => 0
  | o :: rest => (if o = target then 1 else 0) + countOp target rest

theorem countOp_append (t : TagOp) :
    ∀ l1 l2 : List TagOp, countOp t (l1 ++ l2) = countOp t l1 + countOp t l2 := by
  intro l1 l2
  induction l1 with
  | nil => simp [countOp]
  | cons o rest ih => rw [List.cons_append, countOp, countOp, ih]; omega

/-- The well-nestedness fold of the claim: depth of open blocks, failing
on an `end` with no open block. -/
def nest : Nat → List TagOp → Option Nat
  | d, [] => some d
  | d, .openB :: rest => nest (d + 1) rest
  | 0, .closeB :: _ => none
  | d + 1, .closeB :: rest => nest d rest
  | d, .neutral :: rest => nest d rest

/-- The claim's hypothesis: the document's `if`/`with`/`range` opens and
`end` closes are well nested and balanced overall. -/
def balancedDoc (doc : List (List Char)) : Prop := nest 0 (docOps doc) = some 0

theorem nest_count :
    ∀ (ops : List TagOp) (d d' : Nat), nest d ops = some d' →
      d + countOp .openB ops = d' + countOp .closeB ops := by
  intro ops
  induction ops with
  | nil =>
    intro d d' h
    rw [nest] at h
    cases h
    simp [countOp]
  | cons o rest ih =>
    intro d d' h
    cases o with
    | openB =>
      rw [nest] at h
      have hrec := ih (d + 1) d' h
      simp only [countOp]
      simp
      omega
    | closeB =>
      cases d with
      | zero => rw [nest] at h; exact absurd h (by simp)
      | succ d0 =>
        rw [nest] at h
        have hrec := ih d0 d' h
        simp only [countOp]
        simp
        omega
    | neutral =>
      rw [nest] at h
      have hrec := ih d d' h
      simp only [countOp]
      simp
      omega

/-- One successful `applyTag` step changes the stack above the bottom
Global scope by exactly its open/close count: opens push one scope, `end`
pops one (never the bottom — that would have panicked), everything else
preserves the depth; the bottom scope is never touched. -/
theorem applyTag_step (ln : List Char) (n : Nat) (ctx ctx' : Context) (tag : Nat × Nat)
    (g : Scope) (hg : g.statement = .Global)
    (h : applyTag ln n ctx tag = .ok ctx') :
    ∀ pre : List Scope, ctx.scopes = pre ++ [g] →
    ∃ pre' : List Scope, ctx'.scopes = pre' ++ [g] ∧
      pre'.length + (if tagOpKind ln tag = .closeB then 1 else 0) =
      pre.length + (if tagOpKind ln tag = .openB then 1 else 0) := by
  intro pre hpre
  obtain ⟨l⟩ := ctx
  simp only at hpre
  subst hpre
  rw [applyTag] at h
  rw [tagOpKind]
  cases hsp : splitWsChars (slice ln tag.1 tag.2) with
  | nil =>
    rw [hsp] at h
    exact absurd h (by simp [applyTokens])
  | cons t rest =>
    rw [hsp] at h
    simp only [applyTokens] at h
    rw [tokensOpKind]
    by_cases h1 : t = "end".data
    · rw [if_pos h1] at h ⊢
      cases pre with
      | nil =>
        simp only [List.nil_append, Context.pop_scope] at h
        rw [hg] at h
        exact absurd h (by simp)
      | cons p pt =>
        simp only [List.cons_append, Context.pop_scope] at h
        cases hps : p.statement with
        | Global => rw [hps] at h; exact absurd h (by simp)
        | IF lo =>
          rw [hps] at h
          injection h with h
          subst h
          exact ⟨pt, rfl, by simp⟩
        | ELSE lo =>
          rw [hps] at h
          injection h with h
          subst h
          exact ⟨pt, rfl, by simp⟩
        | WITH lo =>
          rw [hps] at h
          injection h with h
          subst h
          exact ⟨pt, rfl, by simp⟩
        | RANGE lo =>
          rw [hps] at h
          injection h with h
          subst h
          exact ⟨pt, rfl, by simp⟩
    · rw [if_neg h1] at h ⊢
      by_cases h2 : t = "if".data
      · rw [if_pos h2] at h ⊢
        simp only [Context.push_scope] at h
        injection h with h
        subst h
        exact ⟨Scope.new (.IF ⟨n, (tag.1, tag.2)⟩) :: pre, rfl, by simp⟩
      · rw [if_neg h2] at h ⊢
        by_cases h3 : t = "else".data
        · rw [if_pos h3] at h ⊢
          cases pre with
          | nil =>
            simp only [List.nil_append, Context.pop_scope] at h
            rw [hg] at h
            exact absurd h (by simp)
          | cons p pt =>
            simp only [List.cons_append, Context.pop_scope] at h
            cases hps : p.statement with
            | Global => rw [hps] at h; exact absurd h (by simp)
            | IF lo =>
              rw [hps] at h
              simp only [Context.push_scope] at h
              injection h with h
              subst h
              exact ⟨_ :: pt, rfl, by simp⟩
            | ELSE lo => rw [hps] at h; exact absurd h (by simp)
            | WITH lo => rw [hps] at h; exact absurd h (by simp)
            | RANGE lo => rw [hps] at h; exact absurd h (by simp)
        · rw [if_neg h3] at h ⊢
          by_cases h4 : t = "with".data
          · rw [if_pos h4] at h ⊢
            simp only [Context.push_scope] at h
            injection h with h
            subst h
            exact ⟨Scope.new (.WITH ⟨n, (tag.1, tag.2)⟩) :: pre, rfl, by simp⟩
          · rw [if_neg h4] at h ⊢
            by_cases h5 : t = "range".data
            · rw [if_pos h5] at h ⊢
              cases hrc : rangeCaptures ln with
              | none =>
                rw [hrc] at h
                simp only [Context.push_scope] at h
                injection h with h
                subst h
                exact ⟨Scope.new (.RANGE ⟨n, (tag.1, tag.2)⟩) :: pre, rfl, by simp⟩
              | some caps =>
                obtain ⟨⟨s1, e1⟩, s2, e2⟩ := caps
                rw [hrc] at h
                simp only [Context.push_scope, Context.declare_var, Scope.new] at h
                injection h with h
                subst h
                exact ⟨_ :: pre, rfl, by simp⟩
            · rw [if_neg h5] at h ⊢
              injection h with h
              subst h
              exact ⟨pre, rfl, by simp⟩

/-- Folding `applyTags` over a tag list: the depth above the bottom Global
scope changes by (opens − closes) of the processed tags. -/
theorem applyTags_step (ln : List Char) (n : Nat) (g : Scope) (hg : g.statement = .Global) :
    ∀ (tags : List (Nat × Nat)) (ctx ctx' : Context) (pre : List Scope),
      applyTags ln n ctx tags = .ok ctx' → ctx.scopes = pre ++ [g] →
      ∃ pre' : List Scope, ctx'.scopes = pre' ++ [g] ∧
        pre'.length + countOp .closeB (tags.map (tagOpKind ln)) =
        pre.length + countOp .openB (tags.map (tagOpKind ln)) := by
  intro tags
  induction tags with
  | nil =>
    intro ctx ctx' pre h hpre
    rw [applyTags] at h
    injection h with h
    subst h
    exact ⟨pre, hpre, by simp [countOp]⟩
  | cons tag rest ih =>
    intro ctx ctx' pre h hpre
    rw [applyTags] at h
    cases hstep : applyTag ln n ctx tag with
    | error e => rw [hstep] at h; exact absurd h (by simp)
    | ok cmid =>
      rw [hstep] at h
      obtain ⟨pre1, hpre1, heq1⟩ := applyTag_step ln n ctx cmid tag g hg hstep pre hpre
      obtain ⟨pre', hpre', heq2⟩ := ih cmid ctx' pre1 h hpre1
      refine ⟨pre', hpre', ?_⟩
      rw [List.map_cons, countOp, countOp]
      cases hk : tagOpKind ln tag <;> rw [hk] at heq1 <;> simp at heq1 ⊢ <;> omega

/-- Scanning whole lines: the depth above the bottom Global scope changes
by (opens − closes) of the document's tags. -/
theorem scanLines_step (g : Scope) (hg : g.statement = .Global) :
    ∀ (doc : List (List Char)) (n : Nat) (ctx ctx' : Context) (pre : List Scope),
      scanLinesFrom n ctx doc = .ok ctx' → ctx.scopes = pre ++ [g] →
      ∃ pre' : List Scope, ctx'.scopes = pre' ++ [g] ∧
        pre'.length + countOp .closeB (docOps doc) =
        pre.length + countOp .openB (docOps doc) := by
  intro doc
  induction doc with
  | nil =>
    intro n ctx ctx' pre h hpre
    rw [scanLinesFrom] at h
    injection h with h
    subst h
    exact ⟨pre, hpre, rfl⟩
  | cons ln rest ih =>
    intro n ctx ctx' pre h hpre
    rw [scanLinesFrom] at h
    cases hstep : scanLine n ctx ln with
    | error e => rw [hstep] at h; exact absurd h (by simp)
    | ok cmid =>
      rw [hstep] at h
      obtain ⟨pre1, hpre1, heq1⟩ :=
        applyTags_step ln n g hg (lineTags ln) ctx cmid pre hstep hpre
      obtain ⟨pre', hpre', heq2⟩ := ih (n + 1) cmid ctx' pre1 h hpre1
      refine ⟨pre', hpre', ?_⟩
      have hops : docOps (ln :: rest) = lineOps ln ++ docOps rest := by
        rw [docOps, List.map_cons]
        rfl
      rw [hops, countOp_append, countOp_append]
      have hlo : lineOps ln = (lineTags ln).map (tagOpKind ln) := rfl
      rw [hlo]
      omega

/-- C8 counterexample: the document `{{ with x }}` / `{{ else }}` /
`{{ end }}` has balanced (well-nested) `with`…`end` opens and closes, yet
scanning it does not leave a depth-1 context: the `else` pops the WITH
scope and hits the `unreachable!()` panic (modelled `elsePoppedNonIf`), so
the claim as stated is false for this input. -/
theorem C8_cex_balanced_but_panics :
    balancedDoc ["{{ with x }}".data, "{{ else }}".data, "{{ end }}".data] ∧
    scanLinesFrom 0 ctx0 ["{{ with x }}".data, "{{ else }}".data, "{{ end }}".data] =
      .error .elsePoppedNonIf :=
  ⟨rfl, rfl⟩

/-- C8 (amended): for every document whose `if`/`with`/`range` opens and
`end` closes are balanced (well-nested) and whose scan completes without a
malformed-template panic, scanning every line leaves the context at depth
exactly 1, containing only the (untouched, empty) Global scope. -/
theorem C8_balanced_scan_global (doc : List (List Char)) (ctxf : Context)
    (hbal : balancedDoc doc) (hscan : scanLinesFrom 0 ctx0 doc = .ok ctxf) :
    ctxf.scopes = [Scope.new Statement.Global] := by
  have h0 : ctx0.scopes = [] ++ [Scope.new .Global] := rfl
  obtain ⟨pre', hpre', heq⟩ :=
    scanLines_step (Scope.new .Global) rfl doc 0 ctx0 ctxf [] hscan h0
  have hcnt := nest_count (docOps doc) 0 0 hbal
  simp only [List.length_nil] at heq
  have hlen : pre'.length = 0 := by omega
  have hnil : pre' = [] := List.length_eq_zero.mp hlen
  subst hnil
  simpa using hpre'

/-- Witness for C8: the balanced document `{{ if x }}` / `{{ end }}`
scans without panic and ends with only the Global scope. -/
theorem C8_witness :
    (⟨[Scope.new Statement.Global]⟩ : Context).scopes = [Scope.new Statement.Global] :=
  C8_balanced_scan_global ["{{ if x }}".data, "{{ end }}".data]
    ⟨[Scope.new Statement.Global]⟩ rfl rfl

end Helmls
